import Mathlib

set_option maxRecDepth 4000

/-!
Verification of the core flattening/merging algorithm of `qc2tsv`
(`src/qc2tsv/qc2tsv.py`, `Qc2Tsv.flatten_to_tsv`), as a shallow embedding.
JSON values are modelled by `JVal`; rows (Python dicts) by ordered
association lists, matching insertion-ordered Python dicts.
-/

/-- A JSON value as handled by the program: scalars (strings and numbers)
and nested mappings.  A mapping is an insertion-ordered association list,
mirroring a Python dict.  Arrays are outside the scope of the verified
claims (the round-trip claim explicitly excludes them). -/
inductive JVal where
  | str : String → JVal
  | num : Int → JVal
  | obj : List (String × JVal) → JVal
deriving Repr

mutual

/-- Decidable equality on `JVal` (structural recursion over the nested type). -/
def decEqVal : (a b : JVal) → Decidable (a = b)
  | .str a, .str b =>
    if h : a = b then isTrue (by rw [h]) else isFalse (by intro he; injection he; contradiction)
  | .num a, .num b =>
    if h : a = b then isTrue (by rw [h]) else isFalse (by intro he; injection he; contradiction)
  | .obj a, .obj b =>
    match decEqFields a b with
    | isTrue h => isTrue (by rw [h])
    | isFalse h => isFalse (by intro he; injection he; contradiction)
  | .str _, .num _ => isFalse nofun
  | .str _, .obj _ => isFalse nofun
  | .num _, .str _ => isFalse nofun
  | .num _, .obj _ => isFalse nofun
  | .obj _, .str _ => isFalse nofun
  | .obj _, .num _ => isFalse nofun

/-- Decidable equality on `JVal` association lists. -/
def decEqFields : (a b : List (String × JVal)) → Decidable (a = b)
  | [], [] => isTrue rfl
  | [], _ :: _ => isFalse nofun
  | _ :: _, [] => isFalse nofun
  | (k, v) :: t, (k', v') :: t' =>
    if hk : k = k' then
      match decEqVal v v' with
      | isTrue hv =>
        match decEqFields t t' with
        | isTrue ht => isTrue (by rw [hk, hv, ht])
        | isFalse ht => isFalse (by intro he; injection he with h1 h2; exact ht h2)
      | isFalse hv =>
        isFalse (by intro he; injection he with h1 h2; exact hv (congrArg Prod.snd h1))
    else
      isFalse (by intro he; injection he with h1 h2; exact hk (congrArg Prod.fst h1))

end

instance : DecidableEq JVal := decEqVal

/-- A row produced by the splitter: one (possibly still nested) dict. -/
abbrev Row := List (String × JVal)

/-- Dict lookup, first match wins (Python dict keys are unique, but the
definition is total on any association list). -/
def getVal : Row → String → Option JVal
  | [], _ => none
  | (k, v) :: t, key => if k = key then some v else getVal t key

/-! ## String splitting and joining

`str.split(sep)` from Python, modelled at the character level.  The source
splits column names on the sentinel `Qc2Tsv.SEP`, header/content lines on
the delimiter and on newlines. -/

/-- The join/split sentinel `Qc2Tsv.SEP` from the source. -/
def SEP : String := "*_:_*"

/-- Does `p` occur at the head of `l`? -/
def leadsWith : List Char → List Char → Bool
  | [], _ => true
  | _ :: _, [] => false
  | a :: as, b :: bs => a = b && leadsWith as bs

/-- Prepend a character to the first chunk of a split result. -/
def consHead (c : Char) : List (List Char) → List (List Char)
  | [] => [[c]]
  | h :: t => (c :: h) :: t

/-- Python `str.split(sep)` on character lists, for the non-empty separator
`s0 :: srest`: scan left to right, cutting at each (non-overlapping)
occurrence of the separator.  `skip` counts characters still to be consumed
as part of a just-matched separator. -/
def splitSkip (s0 : Char) (srest : List Char) : List Char → Nat → List (List Char)
  | [], _ => [[]]
  | _ :: rest, skip + 1 => splitSkip s0 srest rest skip
  | c :: rest, 0 =>
    if leadsWith (s0 :: srest) (c :: rest) then
      [] :: splitSkip s0 srest rest srest.length
    else
      consHead c (splitSkip s0 srest rest 0)

/-- Python `str.split(sep)` without a maxsplit argument.  The
empty-separator case raises in Python and never occurs in the source
(separators are `SEP`, the delimiter, `"\n"` and `":"`); it is mapped to
the whole string. -/
def strSplit (sep s : String) : List String :=
  match sep.data with
  | [] => [s]
  | c :: cs => (splitSkip c cs s.data 0).map String.mk

/-- Separator-joined path (`sep.join(parts)` in Python). -/
def joinSep (sep : String) : List String → String
  | [] => ""
  | [p] => p
  | p :: q :: t => p ++ sep ++ joinSep sep (q :: t)

/-- Character-level version of `joinSep`. -/
def joinChars (sep : List Char) : List (List Char) → List Char
  | [] => []
  | [p] => p
  | p :: q :: t => p ++ sep ++ joinChars sep (q :: t)

/-! ## The row merge step

Source lines 61–77 of `qc2tsv.py`: parse the `--merge-split-rows` directive
`"RULE_NAME:FIRST_KEY"`, scan the split rows for the row lacking the rule
key (`j_not_caught`) and the row whose rule key equals the first key
(`j_with_first_key`), then combine.  `merge_dict` comes from the external
`caper.dict_tool` dependency. -/

/-- Python `merge_split_rows.split(':', 1)` followed by unpacking into
`(rule_name, first_key)`.  Unpacking a 1-element list raises `ValueError`,
modelled by `none`. -/
def splitDirective (s : String) : Option (String × String) :=
  match strSplit ":" s with
  | [] => none
  | [_] => none
  | a :: b :: t => some (a, joinSep ":" (b :: t))

/-- Store a binding in an association list: replace the value at the first
occurrence of the key, or append a missing key (Python `a[key] = value`). -/
def storeKey : List (String × JVal) → String → JVal → List (String × JVal)
  | [], k, v => [(k, v)]
  | (k', v') :: t, k, v =>
    if k' = k then (k', v) :: t
    else (k', v') :: storeKey t k v

mutual

/-- Modelled from the spec: the recursive dict merge of the external
`caper.dict_tool.merge_dict` collaborator — "on key collision, `F`'s value
wins for that key's sub-tree; nested mappings merge recursively, scalars
are overwritten".  `mergeVal a b` is the value stored when `b`'s value
meets `a`'s existing value. -/
def mergeVal : JVal → JVal → JVal
  | .obj fa, .obj fb => .obj (mergeInto fa fb)
  | _, b => b

/-- Modelled from the spec: merge the fields of `b` into `a`, in `b`'s
order; keys already in `a` keep their position (Python dict update). -/
def mergeInto : List (String × JVal) → List (String × JVal) → List (String × JVal)
  | fa, [] => fa
  | fa, (k, v) :: rest =>
    mergeInto
      (storeKey fa k
        (match getVal fa k with
         | some old => mergeVal old v
         | none => v))
      rest

end

/-- One step of the Python scan over the split rows (source lines 64–70):
`if rule_name not in j_: j_not_caught = j_` /
`elif j_[rule_name] == first_key: j_with_first_key = j_` /
`else: merged_jsons.append(j_)`. -/
def goScan (rn fk : String) :
    List Row → Option Row → Option Row → List Row → Option Row × Option Row × List Row
  | [], g, f, acc => (g, f, acc)
  | r :: rest, g, f, acc =>
    match getVal r rn with
    | none => goScan rn fk rest (some r) f acc
    | some v =>
      if v = JVal.str fk then goScan rn fk rest g (some r) acc
      else goScan rn fk rest g f (acc ++ [r])

/-- The merge step for an already-parsed directive (source lines 63–77).
When both candidate rows exist the source computes an unused deep copy
`j_merge`, mutates `j_not_caught` in place via `merge_dict`, and prepends
it; the prepended row's value is `mergeInto g f`. -/
def mergeStepParsed (rn fk : String) (rows : List Row) : List Row :=
  match goScan rn fk rows none none [] with
  | (some g, some f, others) => mergeInto g f :: others
  | (some g, none, others) => g :: others
  | (none, some f, others) => f :: others
  | (none, none, others) => others

/-- The full merge step, including directive parsing (`none` models the
`ValueError` raised while unpacking a directive without `':'`). -/
def mergeStep (directive : String) (rows : List Row) : Option (List Row) :=
  match splitDirective directive with
  | none => none
  | some (rn, fk) => some (mergeStepParsed rn fk rows)

/-- Value of the variable `j_not_caught` after the source's
`merge_dict(j_not_caught, j_with_first_key)` call: `merge_dict` mutates its
first argument in place (the deep copy `j_merge` is computed on line 71 but
never used), so the object bound to `j_not_caught` now holds the merged
mapping. -/
def gAfterMergeCall (g f : Row) : Row := mergeInto g f

/-- Row predicate: the row lacks the rule key (candidate for `j_not_caught`). -/
def isUntagged (rn : String) (r : Row) : Bool := (getVal r rn).isNone

/-- Row predicate: the rule key is present and equals the first key
(candidate for `j_with_first_key`). -/
def isFirstKey (rn fk : String) (r : Row) : Bool :=
  decide (getVal r rn = some (JVal.str fk))

/-- Row predicate: the rule key is present with a different value (the row
is passed through into `merged_jsons`). -/
def isOtherTag (rn fk : String) (r : Row) : Bool :=
  match getVal r rn with
  | none => false
  | some v => !(decide (v = JVal.str fk))

/-! ## Header reconstruction (source lines 94–121)

Multi-row header mode: split every column name on `SEP`, top-align all but
the last segment, bottom-align the last segment, transpose, then blank out
repeated labels in all header rows but the last. -/

/-- Python `m[-1] = x`: replace the last element (raises `IndexError` on an
empty list; the source always applies it to a list of `num_header_lines ≥ 1`
entries, so the `[]` case is unreachable there). -/
def setLast : List String → String → List String
  | [], _ => []
  | [_], x => [x]
  | a :: b :: t, x => a :: setLast (b :: t) x

/-- One column of the sparse header matrix (source lines 101–107):
`m = num_header_lines*['']`, `m[:len(cols)-1] = cols[:-1]`,
`m[-1] = cols[-1]`. -/
def headerColumn (numRows : Nat) (segs : List String) : List String :=
  setLast (segs.dropLast ++ List.replicate (numRows - segs.dropLast.length) "")
    (segs.getLastD "")

/-- `num_header_lines = max([len(c) for c in header_sparse_matrix])`
(Python `max` raises on an empty list; the source's column list is never
empty because `str.split` always returns at least one chunk). -/
def maxSegLen (segss : List (List String)) : Nat :=
  segss.foldr (fun c m => max c.length m) 0

/-- Segments of one column name (`col.split(sep)` with `sep = SEP`). -/
def segsOf (name : String) : List String := strSplit SEP name

/-- The column-major sparse header matrix `header_matrix`
(source lines 98–107). -/
def headerColumns (names : List String) : List (List String) :=
  (names.map segsOf).map (headerColumn (maxSegLen (names.map segsOf)))

/-- The transpose comprehension used twice in the source (lines 109–110 and
125–126): `[[m[j][i] for j in range(len(m))] for i in range(len(m[0]))]`.
`none` models the `IndexError` raised on an empty matrix (`m[0]`) or on a
row shorter than the first row. -/
def transposeM (m : List (List String)) : Option (List (List String)) :=
  match m with
  | [] => none
  | r0 :: _ => (List.range r0.length).mapM (fun i => m.mapM (fun row => row[i]?))

/-- The pre-deduplication transposed header matrix `header_matrix_t` of
multi-row header mode (source lines 98–110). -/
def headerT (names : List String) : Option (List (List String)) :=
  transposeM (headerColumns names)

/-- The inner blanking scan of the deduplication pass (source lines
115–120): starting right of a non-empty cell holding `v`, blank cells equal
to `v`; the first cell different from `v` — empty or not — hits the
`else: break`. -/
def blankRun (v : String) : List String → List String
  | [] => []
  | c :: t => if c = v then "" :: blankRun v t else c :: t

/-- Fuel-indexed form of the deduplication scan over one row.  `blankRun`
preserves length, so fuel equal to the row length always suffices and the
zero-fuel fallback is unreachable; the fuel only makes the recursion
structural. -/
def dedupRowFuel : Nat → List String → List String
  | _, [] => []
  | 0, l => l
  | n + 1, c :: t =>
    if c = "" then c :: dedupRowFuel n t else c :: dedupRowFuel n (blankRun c t)

/-- The deduplication pass over one header row (source lines 113–120):
scan left to right, skipping empty cells (`if not col: continue`), blanking
the run of equal values to the right of each non-empty cell. -/
def dedupRow (l : List String) : List String := dedupRowFuel l.length l

/-- The deduplication pass over the whole header
(`for row in header_matrix_t[:-1]`, source line 113): every row except the
last is deduplicated in place; the last row is untouched. -/
def dedupHeader : List (List String) → List (List String)
  | [] => []
  | [r] => [r]
  | r :: s :: t => dedupRow r :: dedupHeader (s :: t)

/-- Reading of the spec sentence for the deduplication pass: blank any
identical value to the right "up to (but not including) the first cell with
a *different* non-empty value", so an intervening empty cell is passed over
without stopping the scan. -/
def blankRunSpecSide (v : String) : List String → List String
  | [] => []
  | c :: t =>
    if c = v then "" :: blankRunSpecSide v t
    else if c = "" then "" :: blankRunSpecSide v t
    else c :: t

/-- Fuel-indexed spec-side deduplication scan (same fuel scheme as
`dedupRowFuel`; `blankRunSpecSide` also preserves length). -/
def dedupRowSpecFuel : Nat → List String → List String
  | _, [] => []
  | 0, l => l
  | n + 1, c :: t =>
    if c = "" then c :: dedupRowSpecFuel n t
    else c :: dedupRowSpecFuel n (blankRunSpecSide c t)

/-- Spec-side deduplication of one row (the claimed behaviour). -/
def dedupRowSpecSide (l : List String) : List String := dedupRowSpecFuel l.length l

/-- Spec-side deduplication of the whole header (the claimed behaviour). -/
def dedupHeaderSpecSide : List (List String) → List (List String)
  | [] => []
  | [r] => [r]
  | r :: s :: t => dedupRowSpecSide r :: dedupHeaderSpecSide (s :: t)

/-- Local characterization of the code's deduplication: walking a row with
the previous cell's original value at hand, a cell is blanked exactly when
it is non-empty and equal to the original value of the cell immediately to
its left. -/
def blankAfterEq : String → List String → List String
  | _, [] => []
  | prev, c :: t => (if c ≠ "" && c = prev then "" else c) :: blankAfterEq c t

/-- Local (one-cell-lookback) description of `dedupRow`. -/
def dedupRowLocal : List String → List String
  | [] => []
  | c :: t => c :: blankAfterEq c t

/-- Apply a function to every row except the last. -/
def mapExceptLast (f : List String → List String) : List (List String) → List (List String)
  | [] => []
  | [r] => [r]
  | r :: s :: t => f r :: mapExceptLast f (s :: t)

/-! ## Flattener and re-nester (claim C6)

Modelled from the spec: the flattener (delegated in the source to the
external `pandas.io.json.json_normalize`, line 86) walks each row
recursively, and "every scalar leaf becomes one flat-row entry keyed by the
`separator`-joined path of ancestor keys down to that leaf", in key order.
The re-nester of the round-trip claim exists only in the spec ("re-nesting,
using the separator as a path delimiter"): it is modelled as the standard
construction that splits each flat key and inserts the path into a nested
dict. -/

mutual

/-- Leaf paths of a nested mapping, depth first, in key order.  Each entry
is the list of ancestor keys down to a scalar leaf. -/
def flattenPaths : List (String × JVal) → List (List String × JVal)
  | [] => []
  | (k, v) :: t => flattenEntry k v ++ flattenPaths t

/-- Leaf paths contributed by a single binding `k ↦ v`. -/
def flattenEntry (k : String) : JVal → List (List String × JVal)
  | .obj o => (flattenPaths o).map (fun e => (k :: e.1, e.2))
  | v => [([k], v)]

end

/-- Modelled from the spec: the flat row for one document — leaf paths
joined with the separator. -/
def flattenObj (sep : String) (fields : List (String × JVal)) : List (String × JVal) :=
  (flattenPaths fields).map (fun e => (joinSep sep e.1, e.2))

/-- Set the final segment of a path (`d[segs[-1]] = v`): replace at the
first occurrence of the key, append a missing key. -/
def upsertLeaf : List (String × JVal) → String → JVal → List (String × JVal)
  | [], k, v => [(k, v)]
  | (k', v') :: t, k, v =>
    if k' = k then (k', v) :: t else (k', v') :: upsertLeaf t k v

/-- Split an association list around the first occurrence of a key. -/
def findSplit : List (String × JVal) → String →
    Option (List (String × JVal) × JVal × List (String × JVal))
  | [], _ => none
  | (k', v') :: t, k =>
    if k' = k then some ([], v', t)
    else (findSplit t k).map (fun e => ((k', v') :: e.1, e.2.1, e.2.2))

/-- Modelled from the spec: insert one split path into a nested dict
(`d = out; for seg in segs[:-1]: d = d.setdefault(seg, {}); d[segs[-1]] = v`
in Python).  An existing non-mapping value at an intermediate segment would
make Python raise; it never happens for paths produced by flattening a
tree, and is modelled by restarting from an empty mapping. -/
def insertPath : List (String × JVal) → List String → JVal → List (String × JVal)
  | fields, [], _ => fields
  | fields, [k], v => upsertLeaf fields k v
  | fields, k :: k2 :: rest, v =>
    match findSplit fields k with
    | some (pre, JVal.obj o, post) =>
      pre ++ (k, JVal.obj (insertPath o (k2 :: rest) v)) :: post
    | some (pre, _, post) =>
      pre ++ (k, JVal.obj (insertPath [] (k2 :: rest) v)) :: post
    | none => fields ++ [(k, JVal.obj (insertPath [] (k2 :: rest) v))]

/-- Modelled from the spec: re-nest a flat row by splitting each key on the
separator and inserting the resulting path. -/
def unflatten (sep : String) (flat : List (String × JVal)) : List (String × JVal) :=
  flat.foldl (fun acc e => insertPath acc (strSplit sep e.1) e.2) []

/-! ## CSV rendering and the full pipeline (claims C8, C9)

The source hands the flat rows to `pandas` (`json_normalize` + `to_csv`,
lines 86–87), strips newlines, unpacks the first line as the header
(line 88 — a `ValueError` when the stripped text has no newline), rebuilds
the header block, re-splits the data lines naively on the delimiter
(line 122), concatenates, optionally transposes, and joins everything back
with the delimiter and newlines (line 128). -/

/-- Render one scalar cell the way the CSV writer prints it; a column
missing from a row is an empty cell (sparse union). -/
def cellOf (r : Row) (k : String) : String :=
  match getVal r k with
  | some (JVal.str s) => s
  | some (JVal.num n) => toString n
  | some (JVal.obj _) => ""
  | none => ""

/-- Modelled from the spec: the ordered union of the flat rows' keys in
first-seen order, the column set of the normalized frame. -/
def unionCols (rows : List Row) : List String :=
  rows.foldl (fun acc r => r.foldl (fun a e => if a.contains e.1 then a else a ++ [e.1]) acc) []

/-- Does a cell need quoting under minimal CSV quoting? -/
def needsQuote (delim : Char) (s : String) : Bool :=
  s.data.any (fun c => c = delim || c = '\n' || c = '\r' || c = '"')

/-- Double every inner quote of a quoted cell (character level). -/
def escapeChars (cs : List Char) : List Char :=
  cs.foldr (fun c acc => if c = '"' then '"' :: '"' :: acc else c :: acc) []

/-- Double every inner quote of a quoted cell. -/
def escapeQuotes (s : String) : String := String.mk (escapeChars s.data)

/-- Modelled from the spec: minimal standard quoting — "values containing
the delimiter or embedded newlines must be escaped/quoted per standard
delimiter-separated-text quoting rules" (the CSV writer used by the source
quotes exactly the cells that need it). -/
def quoteCell (delim : Char) (s : String) : String :=
  if needsQuote delim s then "\"" ++ escapeQuotes s ++ "\"" else s

/-- One CSV line as the writer emits it. -/
def csvLine (delim : Char) (cells : List String) : String :=
  joinSep (String.mk [delim]) (cells.map (quoteCell delim))

/-- Modelled from the spec: the CSV text of the normalized frame
(`df.to_csv(sep=delim, index=False)`): one header line and one line per
row, each line newline-terminated. -/
def toCsv (delim : Char) (cols : List String) (rows : List Row) : String :=
  joinSep "\n" (csvLine delim cols :: rows.map (fun r => csvLine delim (cols.map (cellOf r)))) ++
    "\n"

/-- Python `tsv.strip('\n')`. -/
def stripNl (s : String) : String :=
  String.mk (((s.data.dropWhile (fun c => c = '\n')).reverse.dropWhile
    (fun c => c = '\n')).reverse)

/-- Python `s.split(c, 1)` unpacked into exactly two parts: `none` models
the `ValueError` raised when the character does not occur. -/
def splitOnceChars (c : Char) : List Char → Option (List Char × List Char)
  | [] => none
  | c' :: t => if c' = c then some ([], t) else (splitOnceChars c t).map
      (fun e => (c' :: e.1, e.2))

/-- String version of `splitOnceChars`. -/
def splitOnce (c : Char) (s : String) : Option (String × String) :=
  (splitOnceChars c s.data).map (fun e => (String.mk e.1, String.mk e.2))

/-- Quote-aware CSV record reader (standard delimiter-separated-text
rules): used to state what "recovering the cell boundaries" of the output
means.  The second argument is the reader state (0 = outside quotes, 1 =
inside quotes, 2 = inside quotes just after a quote character), `cell` the
current cell reversed, `row` the current record, `rows` the finished
records. -/
def csvAux (delim : Char) :
    List Char → Nat → List Char → List String → List (List String) → List (List String)
  | [], _, cell, row, rows => rows ++ [row ++ [String.mk cell.reverse]]
  | c :: t, 1, cell, row, rows =>
    if c = '"' then csvAux delim t 2 cell row rows
    else csvAux delim t 1 (c :: cell) row rows
  | c :: t, 2, cell, row, rows =>
    if c = '"' then csvAux delim t 1 ('"' :: cell) row rows
    else if c = delim then csvAux delim t 0 [] (row ++ [String.mk cell.reverse]) rows
    else if c = '\n' then
      csvAux delim t 0 [] [] (rows ++ [row ++ [String.mk cell.reverse]])
    else csvAux delim t 0 (c :: cell) row rows
  | c :: t, _, cell, row, rows =>
    if c = '"' && cell.isEmpty then csvAux delim t 1 cell row rows
    else if c = delim then csvAux delim t 0 [] (row ++ [String.mk cell.reverse]) rows
    else if c = '\n' then
      csvAux delim t 0 [] [] (rows ++ [row ++ [String.mk cell.reverse]])
    else csvAux delim t 0 (c :: cell) row rows

/-- Parse delimiter-separated text into its records, quote-aware. -/
def csvParse (delim : Char) (s : String) : List (List String) :=
  csvAux delim s.data 0 [] [] []

/-- The final matrix assembled by `flatten_to_tsv` (source lines 82–127),
starting from the already split-and-merged row dicts: normalize and render
to CSV, strip, unpack header and contents, rebuild the header block
(multi-row or collapsed), naively re-split the content lines, concatenate
and optionally transpose.  `none` models the exceptions the source can
raise on the way. -/
def assembleMatrix (collapse transposeFlag : Bool) (delim : Char) (jsons : List Row) :
    Option (List (List String)) :=
  let sep := if collapse then "." else SEP
  let flatRows := jsons.map (flattenObj sep)
  let cols := unionCols flatRows
  let tsv := stripNl (toCsv delim cols flatRows)
  match splitOnce '\n' tsv with
  | none => none
  | some (header, contents) =>
    let delimS := String.mk [delim]
    let headerOpt :=
      if collapse then some [strSplit delimS header]
      else (transposeM (headerColumns (strSplit delimS header))).map dedupHeader
    match headerOpt with
    | none => none
    | some hm =>
      let contentsM := (strSplit "\n" contents).map (fun line => strSplit delimS line)
      let fm := hm ++ contentsM
      if transposeFlag then transposeM fm else some fm

/-- The rendered output text of `flatten_to_tsv`
(source line 128: `'\n'.join([delim.join(row) for row in final_matrix])`). -/
def flattenToTsv (collapse transposeFlag : Bool) (delim : Char) (jsons : List Row) :
    Option String :=
  (assembleMatrix collapse transposeFlag delim jsons).map
    (fun m => joinSep "\n" (m.map (joinSep (String.mk [delim]))))

mutual

/-- Well-formedness of a document relative to the first character `s0` of
the separator: keys at every level are unique, avoid `s0`, and every nested
mapping is non-empty.  These are the hypotheses under which flattening
loses no structure. -/
def wfFields (s0 : Char) : List (String × JVal) → Bool
  | [] => true
  | (k, v) :: t =>
    !(k.data.contains s0) && t.all (fun e => !(decide (e.1 = k))) &&
      wfVal s0 v && wfFields s0 t

/-- Well-formedness of one value: a nested mapping must be non-empty and
itself well-formed. -/
def wfVal (s0 : Char) : JVal → Bool
  | .obj fs => !fs.isEmpty && wfFields s0 fs
  | _ => true

end

/-! ## Helper notions used to state the claims -/

/-- The last element of a list of rows if there is one, else a default:
the value of a Python variable after repeated reassignment in a loop. -/
def lastOr (l : List Row) (d : Option Row) : Option Row :=
  match l.getLast? with
  | some x => some x
  | none => d

/-- Combine the selected candidate rows with the passed-through rows, as
the source does after its scan (lines 70–77). -/
def combineSel (g f : Option Row) (others : List Row) : List Row :=
  match g, f with
  | some gr, some fr => mergeInto gr fr :: others
  | some gr, none => gr :: others
  | none, some fr => fr :: others
  | none, none => others

/-- Keys of an association list, in order. -/
def keysOf (l : List (String × JVal)) : List String := l.map Prod.fst

/-! # Lemmas about the merge step -/

theorem lastOr_cons (r : Row) (l : List Row) (d : Option Row) :
    lastOr (r :: l) d = lastOr l (some r) := by
  cases l with
  | nil => rfl
  | cons x xs =>
    unfold lastOr
    rw [List.getLast?_cons_cons]
    cases hx : (x :: xs).getLast? with
    | some y => rfl
    | none => exact absurd (List.getLast?_eq_none_iff.mp hx) (List.cons_ne_nil x xs)

theorem lastOr_none (l : List Row) : lastOr l none = l.getLast? := by
  unfold lastOr
  cases l.getLast? <;> rfl

theorem goScan_eq (rn fk : String) : ∀ (rows : List Row) (g f : Option Row) (acc : List Row),
    goScan rn fk rows g f acc =
      (lastOr (rows.filter (isUntagged rn)) g,
       lastOr (rows.filter (isFirstKey rn fk)) f,
       acc ++ rows.filter (isOtherTag rn fk)) := by
  intro rows
  induction rows with
  | nil => intro g f acc; simp [goScan, lastOr]
  | cons r rest ih =>
    intro g f acc
    cases hv : getVal r rn with
    | none =>
      have h1 : isUntagged rn r = true := by simp [isUntagged, hv]
      have h2 : isFirstKey rn fk r = false := by simp [isFirstKey, hv]
      have h3 : isOtherTag rn fk r = false := by simp [isOtherTag, hv]
      simp only [goScan, hv, ih, List.filter_cons, h1, h2, h3, if_pos, if_neg,
        Bool.false_eq_true, ite_false, ite_true, lastOr_cons]
    | some v =>
      by_cases hfk : v = JVal.str fk
      · subst hfk
        have h1 : isUntagged rn r = false := by simp [isUntagged, hv]
        have h2 : isFirstKey rn fk r = true := by simp [isFirstKey, hv]
        have h3 : isOtherTag rn fk r = false := by simp [isOtherTag, hv]
        simp only [goScan, hv, if_pos rfl, ih, List.filter_cons, h1, h2, h3,
          Bool.false_eq_true, ite_false, ite_true, lastOr_cons]
      · have h1 : isUntagged rn r = false := by simp [isUntagged, hv]
        have h2 : isFirstKey rn fk r = false := by simp [isFirstKey, hv, hfk]
        have h3 : isOtherTag rn fk r = true := by simp [isOtherTag, hv, hfk]
        simp only [goScan, hv, if_neg hfk, ih, List.filter_cons, h1, h2, h3,
          Bool.false_eq_true, ite_false, ite_true]
        simp

theorem mergeStepParsed_eq (rn fk : String) (rows : List Row) :
    mergeStepParsed rn fk rows =
      combineSel ((rows.filter (isUntagged rn)).getLast?)
        ((rows.filter (isFirstKey rn fk)).getLast?)
        (rows.filter (isOtherTag rn fk)) := by
  unfold mergeStepParsed
  rw [goScan_eq, lastOr_none, lastOr_none, List.nil_append]
  unfold combineSel
  cases (rows.filter (isUntagged rn)).getLast? <;>
    cases (rows.filter (isFirstKey rn fk)).getLast? <;> rfl

theorem filter_partition_length (rn fk : String) (rows : List Row) :
    (rows.filter (isUntagged rn)).length + (rows.filter (isFirstKey rn fk)).length +
      (rows.filter (isOtherTag rn fk)).length = rows.length := by
  induction rows with
  | nil => rfl
  | cons r rest ih =>
    cases hv : getVal r rn with
    | none =>
      simp only [List.filter_cons, isUntagged, isFirstKey, isOtherTag, hv, List.length_cons]
      simp only [Option.isNone_none, ite_true]
      simp
      omega
    | some v =>
      by_cases hfk : v = JVal.str fk <;>
        · simp only [List.filter_cons, isUntagged, isFirstKey, isOtherTag, hv,
            List.length_cons, Option.isNone_some]
          simp [hfk]
          omega

theorem getVal_storeKey (fa : List (String × JVal)) (k0 k : String) (v : JVal) :
    getVal (storeKey fa k0 v) k = if k0 = k then some v else getVal fa k := by
  induction fa with
  | nil => by_cases h : k0 = k <;> simp [storeKey, getVal, h]
  | cons e t ih =>
    obtain ⟨k', v'⟩ := e
    by_cases h : k' = k0
    · subst h
      by_cases h2 : k' = k <;> simp [storeKey, getVal, h2]
    · by_cases h2 : k' = k
      · subst h2
        have h3 : ¬ k0 = k' := fun he => h he.symm
        simp [storeKey, getVal, h, h3]
      · simp [storeKey, getVal, h, h2, ih]

theorem getVal_none_of_not_mem (l : List (String × JVal)) (k : String)
    (h : k ∉ keysOf l) : getVal l k = none := by
  induction l with
  | nil => rfl
  | cons e t ih =>
    obtain ⟨k', v'⟩ := e
    rw [show keysOf ((k', v') :: t) = k' :: keysOf t from rfl, List.mem_cons, not_or] at h
    simp only [getVal, if_neg (fun he : k' = k => h.1 he.symm)]
    exact ih h.2

theorem getVal_mergeInto : ∀ (b a : List (String × JVal)) (k : String),
    (keysOf b).Nodup →
    getVal (mergeInto a b) k =
      match getVal b k with
      | none => getVal a k
      | some vb =>
        some (match getVal a k with
              | none => vb
              | some va => mergeVal va vb) := by
  intro b
  induction b with
  | nil => intro a k _; simp [mergeInto, getVal]
  | cons e rest ih =>
    intro a k hnd
    obtain ⟨k0, v0⟩ := e
    have hpair := List.nodup_cons.mp (show (k0 :: keysOf rest).Nodup from hnd)
    have hk0 : k0 ∉ keysOf rest := hpair.1
    have hnd' : (keysOf rest).Nodup := hpair.2
    simp only [mergeInto]
    rw [ih _ k hnd']
    by_cases hk : k0 = k
    · subst hk
      rw [getVal_none_of_not_mem rest k0 hk0]
      rw [getVal_storeKey, if_pos rfl]
      simp only [getVal, if_pos rfl]
      cases getVal a k0 <;> rfl
    · rw [getVal_storeKey, if_neg hk]
      have hb : getVal ((k0, v0) :: rest) k = getVal rest k := by
        simp [getVal, hk]
      rw [hb]

/-! # Claims about the merge step -/

/-- C10: during the merge step, when several rows lack the rule key, or
several rows carry the first key, only the last such row (in list order) is
selected as `j_not_caught` (respectively `j_with_first_key`); every earlier
candidate is neither prepended nor passed through, so it is dropped from
the output.  The second conjunct shows the three row kinds partition the
input, so the output consists exactly of the passed-through rows plus the
one selected (or merged) row. -/
theorem merge_selects_last_candidates (rn fk : String) (rows : List Row) :
    mergeStepParsed rn fk rows =
      combineSel ((rows.filter (isUntagged rn)).getLast?)
        ((rows.filter (isFirstKey rn fk)).getLast?)
        (rows.filter (isOtherTag rn fk)) ∧
    (rows.filter (isUntagged rn)).length + (rows.filter (isFirstKey rn fk)).length +
      (rows.filter (isOtherTag rn fk)).length = rows.length :=
  ⟨mergeStepParsed_eq rn fk rows, filter_partition_length rn fk rows⟩

/-- C3: when the untagged row `G` and the first-key row `F` both exist
(uniquely), the output starts with the deep merge of `F` into `G` followed
by all other rows; with only one of them it is prepended unchanged; with
neither, the output is exactly the other rows.  The last four conjuncts
characterize the deep merge: `F`'s entries win on key collision, nested
mappings merge recursively, and scalars are overwritten. -/
theorem merge_step_cases (rn fk : String) (rows : List Row) :
    (∀ gr fr, rows.filter (isUntagged rn) = [gr] →
      rows.filter (isFirstKey rn fk) = [fr] →
      mergeStepParsed rn fk rows = mergeInto gr fr :: rows.filter (isOtherTag rn fk)) ∧
    (∀ gr, rows.filter (isUntagged rn) = [gr] → rows.filter (isFirstKey rn fk) = [] →
      mergeStepParsed rn fk rows = gr :: rows.filter (isOtherTag rn fk)) ∧
    (∀ fr, rows.filter (isUntagged rn) = [] → rows.filter (isFirstKey rn fk) = [fr] →
      mergeStepParsed rn fk rows = fr :: rows.filter (isOtherTag rn fk)) ∧
    (rows.filter (isUntagged rn) = [] → rows.filter (isFirstKey rn fk) = [] →
      mergeStepParsed rn fk rows = rows.filter (isOtherTag rn fk)) ∧
    (∀ (gr fr : Row) (key : String), (keysOf fr).Nodup →
      getVal (mergeInto gr fr) key =
        match getVal fr key with
        | none => getVal gr key
        | some vb =>
          some (match getVal gr key with
                | none => vb
                | some va => mergeVal va vb)) ∧
    (∀ (fa fb : List (String × JVal)),
      mergeVal (JVal.obj fa) (JVal.obj fb) = JVal.obj (mergeInto fa fb)) ∧
    (∀ (a : JVal) (s : String), mergeVal a (JVal.str s) = JVal.str s) ∧
    (∀ (a : JVal) (n : Int), mergeVal a (JVal.num n) = JVal.num n) := by
  refine ⟨?_, ?_, ?_, ?_, fun gr fr key h => getVal_mergeInto fr gr key h, ?_, ?_, ?_⟩
  · intro gr fr hg hf
    rw [mergeStepParsed_eq, hg, hf]
    simp [combineSel]
  · intro gr hg hf
    rw [mergeStepParsed_eq, hg, hf]
    simp [combineSel]
  · intro fr hg hf
    rw [mergeStepParsed_eq, hg, hf]
    simp [combineSel]
  · intro hg hf
    rw [mergeStepParsed_eq, hg, hf]
    rfl
  · intro fa fb; rfl
  · intro a s; cases a <;> rfl
  · intro a n; cases a <;> rfl

/-- Witness for C3 at a concrete split-row list with one untagged row, one
first-key row and one other row. -/
theorem merge_step_cases_witness :
    mergeStepParsed "replicate" "rep1"
      [[("qc", JVal.num 1), ("sub", JVal.obj [("a", JVal.num 1), ("b", JVal.num 2)])],
       [("replicate", JVal.str "rep1"), ("sub", JVal.obj [("b", JVal.num 3), ("c", JVal.num 4)])],
       [("replicate", JVal.str "rep2"), ("y", JVal.num 5)]] =
      mergeInto
        [("qc", JVal.num 1), ("sub", JVal.obj [("a", JVal.num 1), ("b", JVal.num 2)])]
        [("replicate", JVal.str "rep1"),
         ("sub", JVal.obj [("b", JVal.num 3), ("c", JVal.num 4)])] ::
        [[("replicate", JVal.str "rep2"), ("y", JVal.num 5)]] := by
  rw [(merge_step_cases "replicate" "rep1" _).1
    [("qc", JVal.num 1), ("sub", JVal.obj [("a", JVal.num 1), ("b", JVal.num 2)])]
    [("replicate", JVal.str "rep1"), ("sub", JVal.obj [("b", JVal.num 3), ("c", JVal.num 4)])]
    (by decide) (by decide)]
  decide

theorem noColon_splitSkip (c : Char) (cs : List Char) (h : c ∉ cs) :
    splitSkip c [] cs 0 = [cs] := by
  induction cs with
  | nil => rfl
  | cons x rest ih =>
    rw [List.mem_cons, not_or] at h
    simp [splitSkip, leadsWith, h.1, ih h.2, consHead]

theorem splitDirective_eq_none (d : String) (h : ':' ∉ d.data) :
    splitDirective d = none := by
  have h1 : strSplit ":" d = [String.mk d.data] := by
    show (splitSkip ':' [] d.data 0).map String.mk = _
    rw [noColon_splitSkip ':' d.data h]
    rfl
  simp [splitDirective, h1]

/-- C4 counterexample: a merge directive without `':'` does not pass the
rows through — the source raises `ValueError` while unpacking
`merge_split_rows.split(':', 1)` (modelled by `none`). -/
theorem merge_noop_counterexample :
    mergeStep "replicaterep1" [[("a", JVal.num 1)]] ≠ some [[("a", JVal.num 1)]] := by
  decide

/-- C4 amended: a directive without `':'` makes the merge step raise
`ValueError` (modelled `none`) instead of passing rows through.  For a
well-formed directive whose rule name occurs in no row, every row becomes a
candidate for `j_not_caught`, so only the last row survives; the step is a
pass-through only when at most one row is present. -/
theorem merge_noop_amended :
    (∀ (d : String) (rows : List Row), ':' ∉ d.data → mergeStep d rows = none) ∧
    (∀ (rn fk : String) (rows : List Row), (∀ r ∈ rows, getVal r rn = none) →
      mergeStepParsed rn fk rows =
        (match rows.getLast? with
         | some r => [r]
         | none => [])) ∧
    (∀ (rn fk : String) (r : Row), getVal r rn = none →
      mergeStepParsed rn fk [r] = [r]) := by
  refine ⟨?_, ?_, ?_⟩
  · intro d rows h
    simp [mergeStep, splitDirective_eq_none d h]
  · intro rn fk rows h
    rw [mergeStepParsed_eq]
    have hg : rows.filter (isUntagged rn) = rows :=
      List.filter_eq_self.mpr (fun r hr => by simp [isUntagged, h r hr])
    have hf : rows.filter (isFirstKey rn fk) = [] :=
      List.filter_eq_nil_iff.mpr (fun r hr => by simp [isFirstKey, h r hr])
    have ho : rows.filter (isOtherTag rn fk) = [] :=
      List.filter_eq_nil_iff.mpr (fun r hr => by simp [isOtherTag, h r hr])
    rw [hg, hf, ho]
    cases rows.getLast? <;> rfl
  · intro rn fk r h
    rw [mergeStepParsed_eq]
    have h1 : isUntagged rn r = true := by simp [isUntagged, h]
    have h2 : isFirstKey rn fk r = false := by simp [isFirstKey, h]
    have h3 : isOtherTag rn fk r = false := by simp [isOtherTag, h]
    simp [List.filter_cons, h1, h2, h3, combineSel]

/-- Witness for C4 amended: a colon-free directive raises, and a one-row
list with an unknown rule name passes through unchanged. -/
theorem merge_noop_witness :
    mergeStep "norule" [[("a", JVal.num 1)], [("b", JVal.num 2)]] = none ∧
    mergeStepParsed "missing" "x" [[("a", JVal.num 1)]] = [[("a", JVal.num 1)]] :=
  ⟨merge_noop_amended.1 "norule" _ (by decide),
   merge_noop_amended.2.2 "missing" "x" _ (by decide)⟩

/-- C5: the source's row merge is not pure in its inputs.  The claim says
both input rows are left unchanged, but `merge_dict(j_not_caught,
j_with_first_key)` mutates `j_not_caught` in place (the deep copy
`j_merge` computed on line 71 is never used): after the call, the object
bound to `j_not_caught` holds the merged mapping, not its original value. -/
theorem merge_mutates_first_argument :
    gAfterMergeCall [("a", JVal.num 1)] [("a", JVal.num 2)] = [("a", JVal.num 2)] ∧
    gAfterMergeCall [("a", JVal.num 1)] [("a", JVal.num 2)] ≠ [("a", JVal.num 1)] := by
  exact ⟨by decide, by decide⟩

/-! # Claims about the header deduplication pass -/

theorem dedupRowFuel_blank : ∀ (n : Nat) (t : List String) (prev : String), t.length ≤ n →
    dedupRowFuel n (if prev = "" then t else blankRun prev t) = blankAfterEq prev t := by
  intro n
  induction n with
  | zero =>
    intro t prev h
    have ht : t = [] := List.length_eq_zero.mp (Nat.le_zero.mp h)
    subst ht
    simp [blankRun, dedupRowFuel, blankAfterEq, ite_self]
  | succ n ih =>
    intro t prev h
    cases t with
    | nil => simp [blankRun, dedupRowFuel, blankAfterEq, ite_self]
    | cons x t' =>
      have hlen : t'.length ≤ n := by
        simp only [List.length_cons] at h
        omega
      by_cases hp : prev = ""
      · rw [if_pos hp]
        by_cases hx : x = ""
        · have hIH := ih t' "" hlen
          rw [if_pos rfl] at hIH
          subst hx
          simp [dedupRowFuel, blankAfterEq, hp, hIH]
        · have hIH := ih t' x hlen
          rw [if_neg hx] at hIH
          subst hp
          simp [dedupRowFuel, blankAfterEq, hx, hIH]
      · rw [if_neg hp]
        by_cases hxp : x = prev
        · have hIH := ih t' prev hlen
          rw [if_neg hp] at hIH
          subst hxp
          simp [blankRun, dedupRowFuel, blankAfterEq, hp, hIH]
        · have hblank : blankRun prev (x :: t') = x :: t' := by simp [blankRun, hxp]
          rw [hblank]
          by_cases hx : x = ""
          · have hIH := ih t' "" hlen
            rw [if_pos rfl] at hIH
            subst hx
            simp [dedupRowFuel, blankAfterEq, hxp, hIH]
          · have hIH := ih t' x hlen
            rw [if_neg hx] at hIH
            simp [dedupRowFuel, blankAfterEq, hx, hxp, hIH]

theorem dedupRow_eq_local (l : List String) : dedupRow l = dedupRowLocal l := by
  cases l with
  | nil => rfl
  | cons c t =>
    unfold dedupRow dedupRowLocal
    by_cases hc : c = ""
    · have hIH := dedupRowFuel_blank t.length t "" le_rfl
      rw [if_pos rfl] at hIH
      subst hc
      simp [dedupRowFuel, hIH]
    · have hIH := dedupRowFuel_blank t.length t c le_rfl
      rw [if_neg hc] at hIH
      simp [dedupRowFuel, hc, hIH]

/-- C2 amended: in every header row but the last, the code blanks exactly
the maximal run of consecutive identical values immediately to the right of
each non-empty cell: a cell is blanked precisely when it is non-empty and
equal to the original value of the cell immediately to its left.  The first
differing cell — empty cells included — stops the blanking (`else: break`),
so identical values beyond an intervening empty cell are kept. -/
theorem dedup_blanks_consecutive_runs (rows : List (List String)) :
    dedupHeader rows = mapExceptLast dedupRowLocal rows := by
  induction rows with
  | nil => rfl
  | cons r rest ih =>
    cases rest with
    | nil => rfl
    | cons s t => simp [dedupHeader, mapExceptLast, dedupRow_eq_local, ih]

/-- C2 counterexample: on header rows `[["a","","a"],["x","y","z"]]` the
code leaves the second `"a"` in place (the empty middle cell hits the
`else: break`), while the claimed behaviour — blank identical values up to
the first *different non-empty* value — would blank it. -/
theorem dedup_empty_cell_stops_counterexample :
    dedupHeader [["a", "", "a"], ["x", "y", "z"]] = [["a", "", "a"], ["x", "y", "z"]] ∧
    dedupHeaderSpecSide [["a", "", "a"], ["x", "y", "z"]] = [["a", "", ""], ["x", "y", "z"]] ∧
    dedupHeader [["a", "", "a"], ["x", "y", "z"]] ≠
      dedupHeaderSpecSide [["a", "", "a"], ["x", "y", "z"]] := by
  decide

/-! # Lemmas about the multi-row header construction -/

theorem setLast_length (l : List String) (x : String) : (setLast l x).length = l.length := by
  induction l with
  | nil => rfl
  | cons a t ih =>
    cases t with
    | nil => rfl
    | cons b t' => simpa [setLast] using ih

theorem setLast_getElem?_lt (l : List String) (x : String) (i : Nat) (h : i + 1 < l.length) :
    (setLast l x)[i]? = l[i]? := by
  induction l generalizing i with
  | nil => simp at h
  | cons a t ih =>
    cases t with
    | nil => simp at h
    | cons b t' =>
      cases i with
      | zero => simp [setLast]
      | succ j =>
        simp only [setLast, List.getElem?_cons_succ]
        exact ih j (by simp only [List.length_cons] at h ⊢; omega)

theorem setLast_last (l : List String) (x : String) (h : l ≠ []) :
    (setLast l x)[l.length - 1]? = some x := by
  induction l with
  | nil => exact absurd rfl h
  | cons a t ih =>
    cases t with
    | nil => rfl
    | cons b t' =>
      have hrec := ih (List.cons_ne_nil b t')
      simp only [List.length_cons, Nat.add_sub_cancel] at hrec ⊢
      simpa [setLast, List.getElem?_cons_succ] using hrec

theorem headerColumn_length (n : Nat) (segs : List String)
    (h : segs.dropLast.length ≤ n) : (headerColumn n segs).length = n := by
  unfold headerColumn
  rw [setLast_length, List.length_append, List.length_replicate]
  omega

theorem headerColumn_top (n : Nat) (segs : List String) (p : Nat)
    (hn : segs.length ≤ n) (hp : p + 1 < segs.length) :
    (headerColumn n segs)[p]? = segs[p]? := by
  unfold headerColumn
  have hdl : segs.dropLast.length = segs.length - 1 := List.length_dropLast segs
  have hlist : (segs.dropLast ++ List.replicate (n - segs.dropLast.length) "").length = n := by
    rw [List.length_append, List.length_replicate, hdl]; omega
  rw [setLast_getElem?_lt _ _ p (by rw [hlist]; omega)]
  rw [List.getElem?_append_left (by rw [hdl]; omega)]
  rw [List.getElem?_dropLast, if_pos (by omega)]

theorem headerColumn_mid (n : Nat) (segs : List String) (p : Nat)
    (hn : segs.length ≤ n) (h1 : segs.length - 1 ≤ p) (h2 : p + 1 < n) :
    (headerColumn n segs)[p]? = some "" := by
  unfold headerColumn
  have hdl : segs.dropLast.length = segs.length - 1 := List.length_dropLast segs
  have hlist : (segs.dropLast ++ List.replicate (n - segs.dropLast.length) "").length = n := by
    rw [List.length_append, List.length_replicate, hdl]; omega
  rw [setLast_getElem?_lt _ _ p (by rw [hlist]; omega)]
  rw [List.getElem?_append_right (by rw [hdl]; omega)]
  rw [List.getElem?_replicate, if_pos (by rw [hdl]; omega)]

theorem headerColumn_bot (n : Nat) (segs : List String) (hn : segs.length ≤ n)
    (h1 : 1 ≤ n) :
    (headerColumn n segs)[n - 1]? = some (segs.getLastD "") := by
  unfold headerColumn
  have hdl : segs.dropLast.length = segs.length - 1 := List.length_dropLast segs
  have hlist : (segs.dropLast ++ List.replicate (n - segs.dropLast.length) "").length = n := by
    rw [List.length_append, List.length_replicate, hdl]; omega
  have hne : segs.dropLast ++ List.replicate (n - segs.dropLast.length) "" ≠ [] := by
    intro he
    rw [he] at hlist
    simp at hlist
    omega
  have hfin := setLast_last _ (segs.getLastD "") hne
  rw [hlist] at hfin
  exact hfin

theorem consHead_ne_nil (c : Char) (l : List (List Char)) : consHead c l ≠ [] := by
  cases l <;> simp [consHead]

theorem splitSkip_ne_nil (s0 : Char) (srest : List Char) :
    ∀ (cs : List Char) (k : Nat), splitSkip s0 srest cs k ≠ [] := by
  intro cs
  induction cs with
  | nil => intro k; simp [splitSkip]
  | cons c rest ih =>
    intro k
    cases k with
    | zero =>
      simp only [splitSkip]
      split
      · simp
      · exact consHead_ne_nil _ _
    | succ j => exact ih j

theorem strSplit_ne_nil (sep s : String) : strSplit sep s ≠ [] := by
  unfold strSplit
  cases hd : sep.data with
  | nil => simp
  | cons c cs => simp [splitSkip_ne_nil]

theorem le_maxSegLen (ss : List (List String)) (s : List String) (h : s ∈ ss) :
    s.length ≤ maxSegLen ss := by
  induction ss with
  | nil => cases h
  | cons a t ih =>
    rcases List.mem_cons.mp h with rfl | hm
    · exact Nat.le_max_left _ _
    · exact le_trans (ih hm) (Nat.le_max_right _ _)

theorem mapM_option_eq_map {α β : Type} (l : List β) (f : β → Option α) (g : β → α)
    (h : ∀ x ∈ l, f x = some (g x)) : l.mapM f = some (l.map g) := by
  induction l with
  | nil => rfl
  | cons a t ih =>
    rw [List.mapM_cons, h a (List.mem_cons_self a t),
      ih (fun x hx => h x (List.mem_cons_of_mem a hx))]
    rfl

theorem transposeM_eq (m : List (List String)) (n : Nat) (hm : m ≠ [])
    (h : ∀ r ∈ m, r.length = n) :
    transposeM m =
      some ((List.range n).map (fun i => m.map (fun row => row[i]?.getD ""))) := by
  cases m with
  | nil => exact absurd rfl hm
  | cons r0 t =>
    show (List.range r0.length).mapM _ = _
    rw [h r0 (List.mem_cons_self r0 t)]
    refine mapM_option_eq_map _ _ _ (fun i hi => ?_)
    refine mapM_option_eq_map _ _ _ (fun row hrow => ?_)
    have hlt : i < row.length := by
      rw [h row hrow]
      exact List.mem_range.mp hi
    rw [List.getElem?_eq_getElem hlt]
    rfl

/-- C1 amended: in multi-row header mode, for a non-empty list of flattened
column names the pre-deduplication header matrix has exactly `R` rows,
where `R` is the maximum segment count; a column with `k` segments has its
first `k-1` segments at positions `0..k-2`, empty strings at the positions
in between, and its last segment in the bottom row — which is therefore
non-empty whenever the column name's last segment is non-empty (the
original claim's unconditional non-emptiness fails for a column name whose
last segment is empty, e.g. the empty column name). -/
theorem header_matrix_shape (names : List String) (hne : names ≠ []) :
    ∃ T : List (List String), headerT names = some T ∧
      T.length = maxSegLen (names.map segsOf) ∧
      (∀ (c : Nat) (name : String), names[c]? = some name →
        ((∀ p, p + 1 < (segsOf name).length →
            (T[p]?.getD [])[c]?.getD "" = (segsOf name)[p]?.getD "") ∧
         (∀ p, (segsOf name).length - 1 ≤ p → p + 1 < T.length →
            (T[p]?.getD [])[c]?.getD "" = "") ∧
         (T[T.length - 1]?.getD [])[c]?.getD "" = (segsOf name).getLastD "" ∧
         ((segsOf name).getLastD "" ≠ "" →
            (T[T.length - 1]?.getD [])[c]?.getD "" ≠ ""))) := by
  have hseg : ∀ name ∈ names, (segsOf name).length ≤ maxSegLen (names.map segsOf) :=
    fun name hm => le_maxSegLen _ _ (List.mem_map_of_mem segsOf hm)
  have hcols : ∀ col ∈ headerColumns names, col.length = maxSegLen (names.map segsOf) := by
    intro col hcol
    unfold headerColumns at hcol
    obtain ⟨segs, hsegs, rfl⟩ := List.mem_map.mp hcol
    obtain ⟨name, hname, rfl⟩ := List.mem_map.mp hsegs
    refine headerColumn_length _ _ ?_
    rw [List.length_dropLast]
    have := hseg name hname
    omega
  have hmne : headerColumns names ≠ [] := by
    unfold headerColumns
    simp only [ne_eq, List.map_eq_nil_iff]
    exact hne
  refine ⟨_, transposeM_eq _ _ hmne hcols, by simp, ?_⟩
  intro c name hc
  have hnm : name ∈ names := List.getElem?_mem hc
  have hlenseg : (segsOf name).length ≤ maxSegLen (names.map segsOf) := hseg name hnm
  have hsne : segsOf name ≠ [] := strSplit_ne_nil SEP name
  have hR1 : 1 ≤ maxSegLen (names.map segsOf) := by
    have := hlenseg
    have hpos : 0 < (segsOf name).length := List.length_pos.mpr hsne
    omega
  have hcol : (headerColumns names)[c]? = some (headerColumn (maxSegLen (names.map segsOf))
      (segsOf name)) := by
    unfold headerColumns
    rw [List.getElem?_map, List.getElem?_map, hc]
    rfl
  set R := maxSegLen (names.map segsOf) with hRdef
  have hTlen :
      ((List.range R).map
        (fun i => (headerColumns names).map (fun row => row[i]?.getD ""))).length = R := by
    simp
  have hentry : ∀ p, p < R →
      (((List.range R).map
          (fun i => (headerColumns names).map (fun row => row[i]?.getD "")))[p]?.getD
        [])[c]?.getD "" =
        (headerColumn R (segsOf name))[p]?.getD "" := by
    intro p hp
    rw [List.getElem?_map, List.getElem?_range hp]
    simp only [Option.map_some', Option.getD_some]
    rw [List.getElem?_map, hcol]
    rfl
  rw [hTlen]
  refine ⟨?_, ?_, ?_, ?_⟩
  · intro p hp
    have hpR : p < R := by omega
    rw [hentry p hpR, headerColumn_top R (segsOf name) p hlenseg hp]
  · intro p h1 h2
    have hpR : p < R := by omega
    rw [hentry p hpR, headerColumn_mid R (segsOf name) p hlenseg h1 h2]
    rfl
  · have hpR : R - 1 < R := by omega
    rw [hentry (R - 1) hpR, headerColumn_bot R (segsOf name) hlenseg hR1]
    rfl
  · intro hnz
    have hpR : R - 1 < R := by omega
    rw [hentry (R - 1) hpR, headerColumn_bot R (segsOf name) hlenseg hR1]
    simpa using hnz

/-- Witness for C1 at the two-column name list `["a*_:_*b", "c"]`, whose
header matrix has 2 rows. -/
theorem header_matrix_shape_witness :
    (headerT ["a*_:_*b", "c"]).map List.length = some 2 := by
  obtain ⟨T, h1, h2, _⟩ := header_matrix_shape ["a*_:_*b", "c"] (by decide)
  rw [h1, Option.map_some', h2]
  decide

/-- C1 counterexample: for the one-element column-name list `[""]` the
header matrix is `[[""]]`; its bottom row contains an empty cell, against
the claim that the bottom-most header row cell of every column is
non-empty. -/
theorem header_bottom_row_empty_counterexample :
    headerT [""] = some [[""]] ∧
    (((headerT [""]).getD []).getLastD []).contains "" = true := by
  decide

/-! # Claims about the transpose -/

theorem map_getD_range (l : List String) :
    (List.range l.length).map (fun i => l[i]?.getD "") = l := by
  induction l with
  | nil => rfl
  | cons a t ih =>
    rw [List.length_cons, List.range_succ_eq_map, List.map_cons, List.map_map]
    simp only [List.getElem?_cons_zero, Option.getD_some]
    congr 1
    calc (List.range t.length).map ((fun i => (a :: t)[i]?.getD "") ∘ Nat.succ)
        = (List.range t.length).map (fun i => t[i]?.getD "") := by
          refine List.map_congr_left (fun i _ => ?_)
          simp
      _ = t := ih

/-- C7 amended: double transposition is the identity on every rectangular
matrix with at least one row and at least one column; for the degenerate
rectangular matrices (no rows, or rows of length zero) the comprehension
`[[m[j][i] for j in range(len(m))] for i in range(len(m[0]))]` raises
`IndexError` on `m[0]` at one of the two applications, so the original
unrestricted claim fails. -/
theorem transpose_involution (M : List (List String)) (n k : Nat)
    (hn : M.length = n) (hn1 : 0 < n) (hk1 : 0 < k)
    (hrect : ∀ r ∈ M, r.length = k) :
    (transposeM M).bind transposeM = some M := by
  have hMne : M ≠ [] := by
    intro he
    rw [he] at hn
    simp at hn
    omega
  rw [transposeM_eq M k hMne hrect, Option.some_bind]
  have hTne : (List.range k).map (fun i => M.map (fun row => row[i]?.getD "")) ≠ [] := by
    simp only [ne_eq, List.map_eq_nil_iff, List.range_eq_nil]
    omega
  have hTrect : ∀ r ∈ (List.range k).map (fun i => M.map (fun row => row[i]?.getD "")),
      r.length = n := by
    intro r hr
    obtain ⟨i, _, rfl⟩ := List.mem_map.mp hr
    simp [hn]
  rw [transposeM_eq _ n hTne hTrect]
  congr 1
  refine List.ext_getElem? (fun j => ?_)
  by_cases hj : j < n
  · rw [List.getElem?_map, List.getElem?_range hj, Option.map_some']
    have hjM : j < M.length := by omega
    obtain ⟨rowj, hrowj⟩ : ∃ r, M[j]? = some r := ⟨M[j], List.getElem?_eq_getElem hjM⟩
    rw [hrowj]
    congr 1
    have hrowjlen : rowj.length = k := hrect rowj (List.getElem?_mem hrowj)
    calc ((List.range k).map (fun i => M.map (fun row => row[i]?.getD ""))).map
          (fun row => row[j]?.getD "")
        = (List.range k).map (fun i => (M.map (fun row => row[i]?.getD ""))[j]?.getD "") := by
          rw [List.map_map]
          rfl
      _ = (List.range k).map (fun i => rowj[i]?.getD "") := by
          refine List.map_congr_left (fun i _ => ?_)
          rw [List.getElem?_map, hrowj]
          rfl
      _ = rowj := by
          rw [← hrowjlen]
          exact map_getD_range rowj
  · rw [List.getElem?_map]
    have h1 : (List.range n)[j]? = none := by
      rw [List.getElem?_eq_none]
      simpa using Nat.le_of_not_lt hj
    have h2 : M[j]? = none := by
      rw [List.getElem?_eq_none]
      omega
    rw [h1, h2]
    rfl

/-- Witness for C7 on a concrete 2 × 2 matrix. -/
theorem transpose_involution_witness :
    (transposeM [["a", "b"], ["c", "d"]]).bind transposeM = some [["a", "b"], ["c", "d"]] :=
  transpose_involution [["a", "b"], ["c", "d"]] 2 2 rfl (by decide) (by decide) (by decide)

/-- C7 counterexample: `[[], []]` is rectangular (both rows have length 0),
but the first transpose yields `[]` and the second raises `IndexError` on
`m[0]` (modelled by `none`), so `transpose(transpose(M)) == M` fails. -/
theorem transpose_involution_counterexample :
    (transposeM [([] : List String), []]).bind transposeM = none ∧
    (transposeM [([] : List String), []]).bind transposeM ≠ some [[], []] := by
  decide

/-! # Claims about the end-to-end conversion -/

/-- C8 counterexample: on the empty document list the conversion does not
produce an output — the stripped CSV text is empty, so
`(header, contents) = tsv.split('\n', 1)` raises `ValueError` (modelled by
`none`), against the claim that a well-defined empty or header-only output
is produced. -/
theorem empty_input_crashes_counterexample :
    flattenToTsv false false '\t' [] = none := by decide

/-- C8 amended: for every combination of options, the conversion of an
empty document list raises `ValueError` while unpacking the header and
contents lines (modelled: returns `none`) instead of producing output:
`to_csv` of the empty frame is a single newline, which `strip('\n')`
reduces to the empty string. -/
theorem empty_input_always_crashes (collapse transposeFlag : Bool) (delim : Char) :
    flattenToTsv collapse transposeFlag delim [] = none := by
  cases collapse <;> cases transposeFlag <;> rfl

/-! # Split/join lemmas at the character level -/

theorem leadsWith_append (l r : List Char) : leadsWith l (l ++ r) = true := by
  induction l with
  | nil => rfl
  | cons a as ih => simp [leadsWith, ih]

theorem leadsWith_drop (p : List Char) : ∀ (l : List Char), leadsWith p l = true →
    l = p ++ l.drop p.length := by
  induction p with
  | nil => intro l _; simp
  | cons a as ih =>
    intro l h
    cases l with
    | nil => simp [leadsWith] at h
    | cons b bs =>
      simp only [leadsWith, Bool.and_eq_true, decide_eq_true_eq] at h
      obtain ⟨rfl, h2⟩ := h
      simp only [List.length_cons, List.drop_succ_cons, List.cons_append]
      exact congrArg (a :: ·) (ih bs h2)

theorem splitSkip_consume (s0 : Char) (srest : List Char) :
    ∀ (pre rest : List Char), splitSkip s0 srest (pre ++ rest) pre.length =
      splitSkip s0 srest rest 0 := by
  intro pre
  induction pre with
  | nil => intro rest; rfl
  | cons c pre' ih => intro rest; exact ih rest

theorem splitSkip_no_s0 (s0 : Char) (srest : List Char) :
    ∀ (cs : List Char), s0 ∉ cs → splitSkip s0 srest cs 0 = [cs] := by
  intro cs
  induction cs with
  | nil => intro _; rfl
  | cons c rest ih =>
    intro h
    rw [List.mem_cons, not_or] at h
    have hlw : leadsWith (s0 :: srest) (c :: rest) = false := by
      simp [leadsWith, h.1]
    simp [splitSkip, hlw, ih h.2, consHead]

theorem splitSkip_cons_zero (s0 : Char) (srest : List Char) (c : Char) (cs : List Char) :
    splitSkip s0 srest (c :: cs) 0 =
      if leadsWith (s0 :: srest) (c :: cs) = true then
        [] :: splitSkip s0 srest cs srest.length
      else consHead c (splitSkip s0 srest cs 0) := by
  simp only [splitSkip]

theorem splitSkip_boundary (s0 : Char) (srest : List Char) :
    ∀ (p rest : List Char), s0 ∉ p →
    splitSkip s0 srest (p ++ s0 :: srest ++ rest) 0 = p :: splitSkip s0 srest rest 0 := by
  intro p
  induction p with
  | nil =>
    intro rest _
    simp only [List.nil_append, List.cons_append]
    rw [splitSkip_cons_zero]
    have hlw : leadsWith (s0 :: srest) (s0 :: (srest ++ rest)) = true := by
      have := leadsWith_append (s0 :: srest) rest
      simpa using this
    rw [if_pos hlw, splitSkip_consume]
  | cons c p' ih =>
    intro rest h
    rw [List.mem_cons, not_or] at h
    simp only [List.cons_append]
    rw [splitSkip_cons_zero]
    have hlw : ¬ leadsWith (s0 :: srest) (c :: (p' ++ s0 :: srest ++ rest)) = true := by
      simp [leadsWith, h.1]
    rw [if_neg hlw, ih rest h.2]
    rfl

theorem joinChars_consHead (sep : List Char) (c : Char) (S : List (List Char)) (h : S ≠ []) :
    joinChars sep (consHead c S) = c :: joinChars sep S := by
  cases S with
  | nil => exact absurd rfl h
  | cons y t =>
    cases t with
    | nil => rfl
    | cons z t' => simp [consHead, joinChars]

theorem splitSkip_joinChars (s0 : Char) (srest : List Char) :
    ∀ (parts : List (List Char)), parts ≠ [] → (∀ p ∈ parts, s0 ∉ p) →
    splitSkip s0 srest (joinChars (s0 :: srest) parts) 0 = parts := by
  intro parts
  induction parts with
  | nil => intro h _; exact absurd rfl h
  | cons p rest ih =>
    intro _ hclean
    cases rest with
    | nil => exact splitSkip_no_s0 s0 srest p (hclean p (List.mem_cons_self _ _))
    | cons q t =>
      have hsh : joinChars (s0 :: srest) (p :: q :: t) =
          p ++ s0 :: srest ++ joinChars (s0 :: srest) (q :: t) := by
        simp [joinChars, List.append_assoc]
      rw [hsh, splitSkip_boundary s0 srest p _ (hclean p (List.mem_cons_self _ _)),
        ih (List.cons_ne_nil q t) (fun x hx => hclean x (List.mem_cons_of_mem p hx))]

theorem joinChars_splitSkip : ∀ (n : Nat) (s0 : Char) (srest cs : List Char), cs.length ≤ n →
    joinChars (s0 :: srest) (splitSkip s0 srest cs 0) = cs := by
  intro n
  induction n with
  | zero =>
    intro s0 srest cs h
    have hcs : cs = [] := List.length_eq_zero.mp (Nat.le_zero.mp h)
    subst hcs
    rfl
  | succ n ih =>
    intro s0 srest cs h
    cases cs with
    | nil => rfl
    | cons c rest =>
      by_cases hlw : leadsWith (s0 :: srest) (c :: rest) = true
      · have hsh := leadsWith_drop (s0 :: srest) (c :: rest) hlw
        simp only [List.cons_append, List.length_cons, List.drop_succ_cons,
          List.cons.injEq] at hsh
        obtain ⟨rfl, hrest⟩ := hsh
        have hstep : splitSkip c srest (c :: rest) 0 =
            [] :: splitSkip c srest rest srest.length := by
          simp [splitSkip, hlw]
        rw [hstep]
        conv_lhs => rw [hrest]
        rw [splitSkip_consume]
        have hS := splitSkip_ne_nil c srest (rest.drop srest.length) 0
        cases hSc : splitSkip c srest (rest.drop srest.length) 0 with
        | nil => exact absurd hSc hS
        | cons y t =>
          have hjoin : joinChars (c :: srest) ([] :: y :: t) =
              (c :: srest) ++ joinChars (c :: srest) (y :: t) := by
            simp [joinChars]
          rw [hjoin, ← hSc,
            ih c srest (rest.drop srest.length)
              (by simp only [List.length_drop, List.length_cons] at h ⊢; omega)]
          conv_rhs => rw [hrest]
          simp
      · have hstep : splitSkip s0 srest (c :: rest) 0 =
            consHead c (splitSkip s0 srest rest 0) := by
          simp [splitSkip, hlw]
        rw [hstep,
          joinChars_consHead _ _ _ (splitSkip_ne_nil s0 srest rest 0),
          ih s0 srest rest (by simp only [List.length_cons] at h; omega)]

/-! # Split/join lemmas at the string level -/

theorem joinSep_data (sep : String) : ∀ (parts : List String),
    (joinSep sep parts).data = joinChars sep.data (parts.map String.data) := by
  intro parts
  induction parts with
  | nil => rfl
  | cons p rest ih =>
    cases rest with
    | nil => rfl
    | cons q t =>
      show (p ++ sep ++ joinSep sep (q :: t)).data = _
      rw [String.data_append, String.data_append, ih]
      rfl

theorem string_mk_data (s : String) : String.mk s.data = s := rfl

theorem string_data_inj (a b : String) (h : a.data = b.data) : a = b := by
  cases a
  cases b
  exact congrArg String.mk h

theorem strSplit_joinSep (sep : String) (parts : List String) (s0 : Char) (srest : List Char)
    (hsep : sep.data = s0 :: srest) (hne : parts ≠ [])
    (hclean : ∀ p ∈ parts, s0 ∉ p.data) :
    strSplit sep (joinSep sep parts) = parts := by
  have h0 : strSplit sep (joinSep sep parts) =
      (splitSkip s0 srest (joinSep sep parts).data 0).map String.mk := by
    unfold strSplit
    rw [hsep]
  rw [h0, joinSep_data, hsep]
  rw [splitSkip_joinChars s0 srest (parts.map String.data) (by simpa using hne)
    (by
      intro p hp
      obtain ⟨x, hx, rfl⟩ := List.mem_map.mp hp
      exact hclean x hx)]
  rw [List.map_map]
  calc parts.map (String.mk ∘ String.data)
      = parts.map id := List.map_congr_left (fun x _ => string_mk_data x)
    _ = parts := List.map_id parts

theorem joinSep_strSplit (sep s : String) (s0 : Char) (srest : List Char)
    (hsep : sep.data = s0 :: srest) :
    joinSep sep (strSplit sep s) = s := by
  apply string_data_inj
  rw [joinSep_data]
  have h1 : strSplit sep s = (splitSkip s0 srest s.data 0).map String.mk := by
    unfold strSplit
    rw [hsep]
  rw [h1, List.map_map]
  have h2 : (splitSkip s0 srest s.data 0).map (String.data ∘ String.mk) =
      splitSkip s0 srest s.data 0 := by
    calc (splitSkip s0 srest s.data 0).map (String.data ∘ String.mk)
        = (splitSkip s0 srest s.data 0).map id := List.map_congr_left (fun x _ => rfl)
      _ = _ := List.map_id _
  rw [h2, hsep]
  exact joinChars_splitSkip s.data.length s0 srest s.data le_rfl

/-! # Round-trip lemmas for the flattener and re-nester (claim C6) -/

theorem sizeOf_fields_pos (o : List (String × JVal)) : 0 < sizeOf o := by
  cases o <;> simp_arith

theorem sizeOf_obj_lt (k : String) (o : List (String × JVal)) (t : List (String × JVal)) :
    sizeOf o < sizeOf ((k, JVal.obj o) :: t) := by
  simp only [List.cons.sizeOf_spec, Prod.mk.sizeOf_spec, JVal.obj.sizeOf_spec]
  omega

theorem sizeOf_tail_lt (e : String × JVal) (t : List (String × JVal)) :
    sizeOf t < sizeOf (e :: t) := by
  simp only [List.cons.sizeOf_spec]
  omega

theorem wfFields_cons (s0 : Char) (k : String) (v : JVal) (t : List (String × JVal)) :
    wfFields s0 ((k, v) :: t) = true ↔
      s0 ∉ k.data ∧ (∀ e ∈ t, ¬ e.1 = k) ∧ wfVal s0 v = true ∧ wfFields s0 t = true := by
  simp [wfFields, List.contains, List.elem_iff, and_assoc]

theorem wfVal_obj (s0 : Char) (o : List (String × JVal)) :
    wfVal s0 (JVal.obj o) = true ↔ o ≠ [] ∧ wfFields s0 o = true := by
  simp [wfVal]

theorem upsertLeaf_not_mem (acc : List (String × JVal)) (k : String) (v : JVal)
    (h : k ∉ keysOf acc) : upsertLeaf acc k v = acc ++ [(k, v)] := by
  induction acc with
  | nil => rfl
  | cons e t ih =>
    obtain ⟨k', v'⟩ := e
    rw [show keysOf ((k', v') :: t) = k' :: keysOf t from rfl, List.mem_cons, not_or] at h
    have hkk : ¬ k' = k := fun he => h.1 he.symm
    simp [upsertLeaf, hkk, ih h.2]

theorem findSplit_none (acc : List (String × JVal)) (k : String) (h : k ∉ keysOf acc) :
    findSplit acc k = none := by
  induction acc with
  | nil => rfl
  | cons e t ih =>
    obtain ⟨k', v'⟩ := e
    rw [show keysOf ((k', v') :: t) = k' :: keysOf t from rfl, List.mem_cons, not_or] at h
    have hkk : ¬ k' = k := fun he => h.1 he.symm
    simp [findSplit, hkk, ih h.2]

theorem findSplit_found (pre : List (String × JVal)) (k : String) (v : JVal)
    (post : List (String × JVal)) (h : k ∉ keysOf pre) :
    findSplit (pre ++ (k, v) :: post) k = some (pre, v, post) := by
  induction pre with
  | nil => simp [findSplit]
  | cons e t ih =>
    obtain ⟨k', v'⟩ := e
    rw [show keysOf ((k', v') :: t) = k' :: keysOf t from rfl, List.mem_cons, not_or] at h
    have hkk : ¬ k' = k := fun he => h.1 he.symm
    simp [findSplit, hkk, ih h.2]

theorem insertPath_new (acc : List (String × JVal)) (k : String) (p : List String) (v : JVal)
    (hk : k ∉ keysOf acc) (hp : p ≠ []) :
    insertPath acc (k :: p) v = acc ++ [(k, JVal.obj (insertPath [] p v))] := by
  cases p with
  | nil => exact absurd rfl hp
  | cons p1 prest => simp [insertPath, findSplit_none acc k hk]

theorem insertPath_existing (pre : List (String × JVal)) (k : String)
    (u : List (String × JVal)) (post : List (String × JVal)) (p : List String) (v : JVal)
    (hk : k ∉ keysOf pre) (hp : p ≠ []) :
    insertPath (pre ++ (k, JVal.obj u) :: post) (k :: p) v =
      pre ++ (k, JVal.obj (insertPath u p v)) :: post := by
  cases p with
  | nil => exact absurd rfl hp
  | cons p1 prest => simp [insertPath, findSplit_found pre k (JVal.obj u) post hk]

theorem foldl_insert_group (k : String) :
    ∀ (l : List (List String × JVal)) (pre u post : List (String × JVal)),
      (∀ e ∈ l, e.1 ≠ []) → k ∉ keysOf pre →
      List.foldl (fun acc e => insertPath acc (k :: e.1) e.2)
          (pre ++ (k, JVal.obj u) :: post) l =
        pre ++ (k, JVal.obj (List.foldl (fun acc e => insertPath acc e.1 e.2) u l)) :: post := by
  intro l
  induction l with
  | nil => intro pre u post _ _; rfl
  | cons e rest ih =>
    intro pre u post hne hk
    obtain ⟨p, v⟩ := e
    simp only [List.foldl_cons]
    rw [insertPath_existing pre k u post p v hk (hne (p, v) (List.mem_cons_self _ _))]
    exact ih pre _ post (fun x hx => hne x (List.mem_cons_of_mem _ hx)) hk

theorem flattenPaths_ne_nil (s0 : Char) : ∀ (n : Nat) (o : List (String × JVal)),
    sizeOf o ≤ n → wfFields s0 o = true → o ≠ [] → flattenPaths o ≠ [] := by
  intro n
  induction n with
  | zero =>
    intro o hs _ _
    exact absurd hs (by have := sizeOf_fields_pos o; omega)
  | succ n ih =>
    intro o hs hwf hne
    cases o with
    | nil => exact absurd rfl hne
    | cons e t =>
      obtain ⟨k, v⟩ := e
      obtain ⟨_, _, hwfv, _⟩ := (wfFields_cons s0 k v t).mp hwf
      rw [show flattenPaths ((k, v) :: t) = flattenEntry k v ++ flattenPaths t from rfl]
      cases v with
      | str s => simp [flattenEntry]
      | num m => simp [flattenEntry]
      | obj o' =>
        obtain ⟨ho'ne, hwfo'⟩ := (wfVal_obj s0 o').mp hwfv
        have hso' : sizeOf o' ≤ n := by have := sizeOf_obj_lt k o' t; omega
        have := ih o' hso' hwfo' ho'ne
        simp only [flattenEntry, ne_eq, List.append_eq_nil, List.map_eq_nil_iff]
        intro hcontra
        exact this hcontra.1

theorem flattenPaths_paths (s0 : Char) : ∀ (n : Nat) (fields : List (String × JVal)),
    sizeOf fields ≤ n → wfFields s0 fields = true →
    ∀ e ∈ flattenPaths fields, e.1 ≠ [] ∧ ∀ part ∈ e.1, s0 ∉ part.data := by
  intro n
  induction n with
  | zero =>
    intro fields hs _
    exact absurd hs (by have := sizeOf_fields_pos fields; omega)
  | succ n ih =>
    intro fields hs hwf e he
    cases fields with
    | nil => simp [flattenPaths] at he
    | cons e0 t =>
      obtain ⟨k, v⟩ := e0
      obtain ⟨hkclean, _, hwfv, hwft⟩ := (wfFields_cons s0 k v t).mp hwf
      rw [show flattenPaths ((k, v) :: t) = flattenEntry k v ++ flattenPaths t from rfl] at he
      have hst : sizeOf t ≤ n := by have := sizeOf_tail_lt (k, v) t; omega
      rcases List.mem_append.mp he with hentry | htail
      · cases v with
        | str s =>
          simp only [flattenEntry, List.mem_singleton] at hentry
          subst hentry
          exact ⟨by simp, by simpa using hkclean⟩
        | num m =>
          simp only [flattenEntry, List.mem_singleton] at hentry
          subst hentry
          exact ⟨by simp, by simpa using hkclean⟩
        | obj o' =>
          obtain ⟨_, hwfo'⟩ := (wfVal_obj s0 o').mp hwfv
          have hso' : sizeOf o' ≤ n := by have := sizeOf_obj_lt k o' t; omega
          simp only [flattenEntry, List.mem_map] at hentry
          obtain ⟨e', he', rfl⟩ := hentry
          have hrec := ih o' hso' hwfo' e' he'
          refine ⟨by simp, ?_⟩
          intro part hpart
          rcases List.mem_cons.mp hpart with rfl | hmem
          · exact hkclean
          · exact hrec.2 part hmem
      · exact ih t hst hwft e htail

theorem foldl_insert_scalar_step (acc : List (String × JVal)) (k : String) (v : JVal)
    (hkacc : k ∉ keysOf acc) :
    List.foldl (fun a e => insertPath a e.1 e.2) acc [([k], v)] = acc ++ [(k, v)] := by
  simp only [List.foldl_cons, List.foldl_nil]
  show upsertLeaf acc k v = _
  exact upsertLeaf_not_mem acc k v hkacc

theorem disj_snoc (acc t : List (String × JVal)) (k : String) (v : JVal)
    (hdisj : ∀ x ∈ keysOf t, x ∉ keysOf acc)
    (hknodup : ∀ e ∈ t, ¬ e.1 = k) :
    ∀ x ∈ keysOf t, x ∉ keysOf (acc ++ [(k, v)]) := by
  intro x hx hmem
  rw [show keysOf (acc ++ [(k, v)]) = keysOf acc ++ [k] from by simp [keysOf]] at hmem
  rcases List.mem_append.mp hmem with h1 | h1
  · exact hdisj x hx h1
  · obtain ⟨e, he, rfl⟩ := List.mem_map.mp hx
    simp only [List.mem_singleton] at h1
    exact hknodup e he h1

theorem foldl_insert_flattenPaths (s0 : Char) :
    ∀ (n : Nat) (fields acc : List (String × JVal)),
    sizeOf fields ≤ n → wfFields s0 fields = true →
    (∀ x ∈ keysOf fields, x ∉ keysOf acc) →
    List.foldl (fun a e => insertPath a e.1 e.2) acc (flattenPaths fields) = acc ++ fields := by
  intro n
  induction n with
  | zero =>
    intro fields acc hs _ _
    exact absurd hs (by have := sizeOf_fields_pos fields; omega)
  | succ n ih =>
    intro fields acc hs hwf hdisj
    cases fields with
    | nil => simp [flattenPaths]
    | cons e t =>
      obtain ⟨k, v⟩ := e
      obtain ⟨hkclean, hknodup, hwfv, hwft⟩ := (wfFields_cons s0 k v t).mp hwf
      have hkacc : k ∉ keysOf acc := hdisj k (by simp [keysOf])
      have hst : sizeOf t ≤ n := by have := sizeOf_tail_lt (k, v) t; omega
      have hdisjt : ∀ x ∈ keysOf t, x ∉ keysOf acc := by
        intro x hx
        refine hdisj x ?_
        rw [show keysOf ((k, v) :: t) = k :: keysOf t from rfl]
        exact List.mem_cons_of_mem _ hx
      rw [show flattenPaths ((k, v) :: t) = flattenEntry k v ++ flattenPaths t from rfl]
      rw [List.foldl_append]
      cases v with
      | str s =>
        rw [show flattenEntry k (JVal.str s) = [([k], JVal.str s)] from rfl,
          foldl_insert_scalar_step acc k (JVal.str s) hkacc,
          ih t (acc ++ [(k, JVal.str s)]) hst hwft
            (disj_snoc acc t k (JVal.str s) hdisjt hknodup)]
        simp
      | num m =>
        rw [show flattenEntry k (JVal.num m) = [([k], JVal.num m)] from rfl,
          foldl_insert_scalar_step acc k (JVal.num m) hkacc,
          ih t (acc ++ [(k, JVal.num m)]) hst hwft
            (disj_snoc acc t k (JVal.num m) hdisjt hknodup)]
        simp
      | obj o =>
        obtain ⟨hone, hwfo⟩ := (wfVal_obj s0 o).mp hwfv
        have hso : sizeOf o ≤ n := by have := sizeOf_obj_lt k o t; omega
        have hpne : ∀ e ∈ flattenPaths o, e.1 ≠ [] := fun e he =>
          (flattenPaths_paths s0 (sizeOf o) o le_rfl hwfo e he).1
        have hfone : flattenPaths o ≠ [] :=
          flattenPaths_ne_nil s0 (sizeOf o) o le_rfl hwfo hone
        have ho : List.foldl (fun a e => insertPath a e.1 e.2) [] (flattenPaths o) = o := by
          have := ih o [] hso hwfo (by intro x _; simp [keysOf])
          simpa using this
        rw [show flattenEntry k (JVal.obj o) =
          (flattenPaths o).map (fun e => (k :: e.1, e.2)) from rfl]
        rw [List.foldl_map]
        cases hfp : flattenPaths o with
        | nil => exact absurd hfp hfone
        | cons e0 l' =>
          obtain ⟨p0, v0⟩ := e0
          simp only [List.foldl_cons]
          rw [insertPath_new acc k p0 v0 hkacc
            (hpne (p0, v0) (by rw [hfp]; exact List.mem_cons_self _ _))]
          rw [show acc ++ [(k, JVal.obj (insertPath [] p0 v0))] =
            acc ++ (k, JVal.obj (insertPath [] p0 v0)) :: [] from rfl]
          rw [foldl_insert_group k l' acc (insertPath [] p0 v0) []
            (fun x hx => hpne x (by rw [hfp]; exact List.mem_cons_of_mem _ hx)) hkacc]
          rw [hfp] at ho
          simp only [List.foldl_cons] at ho
          rw [ho]
          rw [show (acc ++ (k, JVal.obj o) :: []) = acc ++ [(k, JVal.obj o)] from rfl,
            ih t (acc ++ [(k, JVal.obj o)]) hst hwft
              (disj_snoc acc t k (JVal.obj o) hdisjt hknodup)]
          simp

theorem foldl_insert_congr : ∀ (l : List (List String × JVal)) (acc : List (String × JVal)),
    (∀ e ∈ l, strSplit SEP (joinSep SEP e.1) = e.1) →
    List.foldl (fun acc e => insertPath acc (strSplit SEP (joinSep SEP e.1)) e.2) acc l =
      List.foldl (fun acc e => insertPath acc e.1 e.2) acc l := by
  intro l
  induction l with
  | nil => intro acc _; rfl
  | cons e rest ih =>
    intro acc h
    simp only [List.foldl_cons]
    rw [h e (List.mem_cons_self _ _)]
    exact ih _ (fun x hx => h x (List.mem_cons_of_mem _ hx))

/-- C6 amended: flattening a document and re-nesting the flat row by
splitting each key on the separator recovers the document, provided the
document is well-formed for the separator: keys at every level are unique
and avoid the separator's first character `'*'`, and every nested mapping
is non-empty.  (An empty nested mapping leaves no flat entry at all and is
lost, refuting the unconditional claim; a key containing the separator —
or even ending with a prefix of it — would split into extra segments.) -/
theorem flatten_unflatten_roundtrip (fields : List (String × JVal))
    (hwf : wfFields '*' fields = true) :
    unflatten SEP (flattenObj SEP fields) = fields := by
  unfold unflatten flattenObj
  rw [List.foldl_map]
  have hpaths := flattenPaths_paths '*' (sizeOf fields) fields le_rfl hwf
  rw [foldl_insert_congr (flattenPaths fields) []
    (fun e he => strSplit_joinSep SEP e.1 '*' ['_', ':', '_', '*'] rfl
      (hpaths e he).1 (hpaths e he).2)]
  have := foldl_insert_flattenPaths '*' (sizeOf fields) fields [] le_rfl hwf
    (by intro x _; simp [keysOf])
  simpa using this

/-- Witness for C6 on a concrete well-formed nested document. -/
theorem flatten_unflatten_roundtrip_witness :
    wfFields '*' [("qc", JVal.num 1), ("rep1", JVal.obj [("x", JVal.num 10)])] = true ∧
    unflatten SEP
        (flattenObj SEP [("qc", JVal.num 1), ("rep1", JVal.obj [("x", JVal.num 10)])]) =
      [("qc", JVal.num 1), ("rep1", JVal.obj [("x", JVal.num 10)])] :=
  ⟨by decide, flatten_unflatten_roundtrip _ (by decide)⟩

/-- C6 counterexample: the document `{"a": {}}` contains only nested
mappings (no arrays), yet flattening produces no entries at all and
re-nesting yields the empty document, so the round trip loses the key
structure. -/
theorem roundtrip_counterexample :
    unflatten SEP (flattenObj SEP [("a", JVal.obj [])]) = [] ∧
    unflatten SEP (flattenObj SEP [("a", JVal.obj [])]) ≠ [("a", JVal.obj [])] := by
  decide

/-! # CSV quoting and parsing lemmas (claim C9) -/

theorem escapeChars_cons (c : Char) (cs : List Char) :
    escapeChars (c :: cs) =
      if c = '"' then '"' :: '"' :: escapeChars cs else c :: escapeChars cs := rfl

theorem csvAux_state1 (d c : Char) (t cell : List Char) (row : List String)
    (rows : List (List String)) :
    csvAux d (c :: t) 1 cell row rows =
      if c = '"' then csvAux d t 2 cell row rows
      else csvAux d t 1 (c :: cell) row rows := rfl

theorem csvAux_state2 (d c : Char) (t cell : List Char) (row : List String)
    (rows : List (List String)) :
    csvAux d (c :: t) 2 cell row rows =
      if c = '"' then csvAux d t 1 ('"' :: cell) row rows
      else if c = d then csvAux d t 0 [] (row ++ [String.mk cell.reverse]) rows
      else if c = '\n' then csvAux d t 0 [] [] (rows ++ [row ++ [String.mk cell.reverse]])
      else csvAux d t 0 (c :: cell) row rows := rfl

theorem csvAux_state0 (d c : Char) (t cell : List Char) (row : List String)
    (rows : List (List String)) :
    csvAux d (c :: t) 0 cell row rows =
      if c = '"' && cell.isEmpty then csvAux d t 1 cell row rows
      else if c = d then csvAux d t 0 [] (row ++ [String.mk cell.reverse]) rows
      else if c = '\n' then csvAux d t 0 [] [] (rows ++ [row ++ [String.mk cell.reverse]])
      else csvAux d t 0 (c :: cell) row rows := rfl

theorem csvAux_quoted (d : Char) : ∀ (cs rest cell : List Char) (row : List String)
    (rows : List (List String)),
    csvAux d (escapeChars cs ++ '"' :: rest) 1 cell row rows =
      csvAux d rest 2 (cs.reverse ++ cell) row rows := by
  intro cs
  induction cs with
  | nil =>
    intro rest cell row rows
    rw [show escapeChars [] = [] from rfl, List.nil_append, csvAux_state1, if_pos rfl]
    simp
  | cons c cs' ih =>
    intro rest cell row rows
    rw [escapeChars_cons]
    by_cases hc : c = '"'
    · subst hc
      rw [if_pos rfl]
      simp only [List.cons_append]
      rw [csvAux_state1, if_pos rfl, csvAux_state2, if_pos rfl, ih]
      rw [List.reverse_cons, List.append_assoc]
      rfl
    · rw [if_neg hc]
      simp only [List.cons_append]
      rw [csvAux_state1, if_neg hc, ih]
      rw [List.reverse_cons, List.append_assoc]
      rfl

theorem csvAux_unquoted (d : Char) : ∀ (cs rest cell : List Char) (row : List String)
    (rows : List (List String)),
    (∀ c ∈ cs, ¬ c = '"' ∧ ¬ c = d ∧ ¬ c = '\n') →
    csvAux d (cs ++ rest) 0 cell row rows = csvAux d rest 0 (cs.reverse ++ cell) row rows := by
  intro cs
  induction cs with
  | nil => intro rest cell row rows _; simp
  | cons c cs' ih =>
    intro rest cell row rows h
    have hc := h c (List.mem_cons_self _ _)
    simp only [List.cons_append]
    rw [csvAux_state0, if_neg (by simp [hc.1]), if_neg hc.2.1, if_neg hc.2.2]
    rw [ih rest (c :: cell) row rows (fun x hx => h x (List.mem_cons_of_mem _ hx))]
    rw [List.reverse_cons, List.append_assoc]
    rfl

theorem needsQuote_false_spec (d : Char) (s : String) (h : needsQuote d s = false) :
    ∀ c ∈ s.data, ¬ c = '"' ∧ ¬ c = d ∧ ¬ c = '\n' := by
  intro c hc
  unfold needsQuote at h
  rw [List.any_eq_false] at h
  have := h c hc
  simp only [Bool.or_eq_true, decide_eq_true_eq, not_or] at this
  exact ⟨this.2, this.1.1.1, this.1.1.2⟩

theorem quoteCell_eq_of_needs (d : Char) (s : String) (h : needsQuote d s = true) :
    (quoteCell d s).data = '"' :: (escapeChars s.data ++ ['"']) := by
  unfold quoteCell
  rw [if_pos h]
  show ("\"" ++ escapeQuotes s ++ "\"").data = _
  rw [String.data_append, String.data_append]
  rfl

theorem quoteCell_eq_of_not (d : Char) (s : String) (h : needsQuote d s = false) :
    quoteCell d s = s := by
  unfold quoteCell
  rw [h]
  rfl

theorem csvAux_after_cell (d : Char) (hd1 : ¬ d = '"') (s : String)
    (rest : List Char) (row : List String) (rows : List (List String)) :
    ∃ st, (csvAux d ((quoteCell d s).data ++ rest) 0 [] row rows =
        csvAux d rest st s.data.reverse row rows) ∧ (st = 0 ∨ st = 2) := by
  by_cases hq : needsQuote d s = true
  · refine ⟨2, ?_, Or.inr rfl⟩
    rw [quoteCell_eq_of_needs d s hq]
    simp only [List.cons_append]
    rw [csvAux_state0, if_pos (by decide), List.append_assoc]
    simp only [List.singleton_append]
    rw [csvAux_quoted]
    simp
  · have hq' : needsQuote d s = false := Bool.eq_false_iff.mpr hq
    refine ⟨0, ?_, Or.inl rfl⟩
    rw [quoteCell_eq_of_not d s hq']
    rw [csvAux_unquoted d s.data rest [] row rows (needsQuote_false_spec d s hq')]
    simp

theorem csvAux_boundary_delim (d : Char) (hd1 : ¬ d = '"') (st : Nat)
    (hst : st = 0 ∨ st = 2) (t' cell : List Char) (row : List String)
    (rows : List (List String)) :
    csvAux d (d :: t') st cell row rows =
      csvAux d t' 0 [] (row ++ [String.mk cell.reverse]) rows := by
  rcases hst with rfl | rfl
  · rw [csvAux_state0, if_neg (by simp [hd1]), if_pos rfl]
  · rw [csvAux_state2, if_neg hd1, if_pos rfl]

theorem csvAux_boundary_newline (d : Char) (hd1 : ¬ d = '"') (hdn : ¬ d = '\n')
    (st : Nat) (hst : st = 0 ∨ st = 2) (t' cell : List Char) (row : List String)
    (rows : List (List String)) :
    csvAux d ('\n' :: t') st cell row rows =
      csvAux d t' 0 [] [] (rows ++ [row ++ [String.mk cell.reverse]]) := by
  have hnd : ¬ ('\n' : Char) = d := fun he => hdn he.symm
  have hnq : ¬ ('\n' : Char) = '"' := by decide
  rcases hst with rfl | rfl
  · rw [csvAux_state0, if_neg (by simp [hnq]), if_neg hnd, if_pos rfl]
  · rw [csvAux_state2, if_neg hnq, if_neg hnd, if_pos rfl]

theorem csvAux_row (d : Char) (hd1 : ¬ d = '"') (hdn : ¬ d = '\n') :
    ∀ (cells : List String), cells ≠ [] →
    ∀ (row : List String) (rows : List (List String)) (rest : List Char),
      (rest = [] ∨ ∃ t', rest = '\n' :: t') →
      csvAux d ((csvLine d cells).data ++ rest) 0 [] row rows =
        (match rest with
         | [] => rows ++ [row ++ cells]
         | _ :: t' => csvAux d t' 0 [] [] (rows ++ [row ++ cells])) := by
  intro cells
  induction cells with
  | nil => intro h; exact absurd rfl h
  | cons c1 crest ih =>
    intro _ row rows rest hrest
    cases crest with
    | nil =>
      rw [show csvLine d [c1] = quoteCell d c1 from rfl]
      obtain ⟨st, heq, hst⟩ := csvAux_after_cell d hd1 c1 rest row rows
      rw [heq]
      rcases hrest with rfl | ⟨t', rfl⟩
      · rw [show csvAux d [] st c1.data.reverse row rows =
          rows ++ [row ++ [String.mk c1.data.reverse.reverse]] from rfl]
        simp [string_mk_data]
      · rw [csvAux_boundary_newline d hd1 hdn st hst t' _ row rows]
        simp [string_mk_data]
    | cons c2 crest' =>
      have hdata : (csvLine d (c1 :: c2 :: crest')).data =
          (quoteCell d c1).data ++ d :: (csvLine d (c2 :: crest')).data := by
        show (quoteCell d c1 ++ String.mk [d] ++ joinSep (String.mk [d])
          ((c2 :: crest').map (quoteCell d))).data = _
        rw [String.data_append, String.data_append, List.append_assoc]
        rfl
      rw [hdata, List.append_assoc]
      simp only [List.cons_append]
      obtain ⟨st, heq, hst⟩ := csvAux_after_cell d hd1 c1
        (d :: ((csvLine d (c2 :: crest')).data ++ rest)) row rows
      rw [heq, csvAux_boundary_delim d hd1 st hst _ _ row rows]
      rw [show String.mk c1.data.reverse.reverse = c1 from by simp [string_mk_data]]
      rw [ih (List.cons_ne_nil _ _) (row ++ [c1]) rows rest hrest]
      rcases hrest with rfl | ⟨t', rfl⟩ <;> simp

theorem csvAux_rows (d : Char) (hd1 : ¬ d = '"') (hdn : ¬ d = '\n') :
    ∀ (rs : List (List String)), rs ≠ [] → (∀ r ∈ rs, r ≠ []) →
    ∀ (rows : List (List String)),
      csvAux d (joinSep "\n" (rs.map (csvLine d))).data 0 [] [] rows = rows ++ rs := by
  intro rs
  induction rs with
  | nil => intro h; exact absurd rfl h
  | cons r rs' ih =>
    intro _ hne rows
    cases rs' with
    | nil =>
      rw [show joinSep "\n" ([r].map (csvLine d)) = csvLine d r from rfl]
      have hr := csvAux_row d hd1 hdn r (hne r (List.mem_cons_self _ _)) [] rows []
        (Or.inl rfl)
      simpa using hr
    | cons r2 rs'' =>
      have hdata : (joinSep "\n" ((r :: r2 :: rs'').map (csvLine d))).data =
          (csvLine d r).data ++ '\n' :: (joinSep "\n" ((r2 :: rs'').map (csvLine d))).data := by
        show (csvLine d r ++ "\n" ++ joinSep "\n" ((r2 :: rs'').map (csvLine d))).data = _
        rw [String.data_append, String.data_append, List.append_assoc]
        rfl
      rw [hdata]
      have hrow := csvAux_row d hd1 hdn r (hne r (List.mem_cons_self _ _)) [] rows
        ('\n' :: (joinSep "\n" ((r2 :: rs'').map (csvLine d))).data)
        (Or.inr ⟨_, rfl⟩)
      rw [hrow]
      simp only [List.nil_append]
      rw [ih (List.cons_ne_nil _ _) (fun x hx => hne x (List.mem_cons_of_mem _ hx))
        (rows ++ [r])]
      simp

theorem csv_parse_render (d : Char) (rows : List (List String)) (hd1 : ¬ d = '"')
    (hdn : ¬ d = '\n') (hne : rows ≠ []) (hr : ∀ r ∈ rows, r ≠ []) :
    csvParse d (joinSep "\n" (rows.map (csvLine d))) = rows := by
  unfold csvParse
  have hfin := csvAux_rows d hd1 hdn rows hne hr []
  simpa using hfin

/-- C9 counterexample: for the single document
`{"k\tl": 1, "m": {"n": 2}}` (tab delimiter, multi-row header, no
transpose) the CSV writer quotes the column name `"k\tl"` in the header
line, but the source re-splits that line naively on the delimiter before
rebuilding the multi-row header, so the rendered output's quote-aware cell
boundaries no longer match the assembled matrix: the standard parse reads
`"k\tl"\tn` as two cells where the matrix holds three. -/
theorem renderer_quoting_counterexample :
    assembleMatrix false false '\t' [[("k\tl", JVal.num 1), ("m", JVal.obj [("n", JVal.num 2)])]] =
      some [["", "", "m"], ["\"k", "l\"", "n"], ["1", "2"]] ∧
    flattenToTsv false false '\t' [[("k\tl", JVal.num 1), ("m", JVal.obj [("n", JVal.num 2)])]] =
      some "\t\tm\n\"k\tl\"\tn\n1\t2" ∧
    csvParse '\t' "\t\tm\n\"k\tl\"\tn\n1\t2" =
      [["", "", "m"], ["k\tl", "n"], ["1", "2"]] ∧
    csvParse '\t' "\t\tm\n\"k\tl\"\tn\n1\t2" ≠
      [["", "", "m"], ["\"k", "l\"", "n"], ["1", "2"]] := by
  refine ⟨by decide, by decide, by decide, by decide⟩

/-- C9 amended: the final renderer applies no quoting of its own; instead
(1) joining a naive split back with the same separator is the identity on
any text, so (2) the data section of the non-transposed output reproduces
the CSV writer's lines verbatim, and (3) the writer's minimal quoting is
correct: a standard quote-aware parse of the rendered lines recovers the
written cells exactly, for any delimiter other than `'"'` and `'\n'`.
Boundary recovery of the full output fails in general (see the
counterexample) because the multi-row header is rebuilt from a naive split
of the quoted header line. -/
theorem renderer_quoting_amended :
    (∀ (sep s : String) (s0 : Char) (srest : List Char), sep.data = s0 :: srest →
      joinSep sep (strSplit sep s) = s) ∧
    (∀ (d : Char) (contents : String),
      joinSep "\n" ((strSplit "\n" contents).map
        (fun line => joinSep (String.mk [d]) (strSplit (String.mk [d]) line))) = contents) ∧
    (∀ (d : Char) (rows : List (List String)), ¬ d = '"' → ¬ d = '\n' → rows ≠ [] →
      (∀ r ∈ rows, r ≠ []) →
      csvParse d (joinSep "\n" (rows.map (csvLine d))) = rows) := by
  refine ⟨fun sep s s0 srest hsep => joinSep_strSplit sep s s0 srest hsep, ?_, ?_⟩
  · intro d contents
    have hmap : (strSplit "\n" contents).map
        (fun line => joinSep (String.mk [d]) (strSplit (String.mk [d]) line)) =
        (strSplit "\n" contents).map id :=
      List.map_congr_left (fun line _ => joinSep_strSplit (String.mk [d]) line d [] rfl)
    rw [hmap, List.map_id]
    exact joinSep_strSplit "\n" contents '\n' [] rfl
  · intro d rows hd1 hdn hne hr
    exact csv_parse_render d rows hd1 hdn hne hr

/-- Witness for C9: the quote-aware parse of a rendered table whose cells
contain the delimiter, quotes and a newline recovers the cells. -/
theorem renderer_quoting_witness :
    csvParse '\t' (joinSep "\n" ([["a", "x\ty"], ["", "b\nc\"d"]].map (csvLine '\t'))) =
      [["a", "x\ty"], ["", "b\nc\"d"]] :=
  renderer_quoting_amended.2.2 '\t' [["a", "x\ty"], ["", "b\nc\"d"]]
    (by decide) (by decide) (by decide) (by decide)
